import Mathlib

/-!
# Verification of `new_style/BinaryMatrix.py`

Shallow embedding of the margin-constrained binary-matrix engine:
`conjugate`, `check_margins`, `arbitrary_from_margins`, `canonical_scalings`
and `approximate_from_margins_weights`, together with proofs and refutations
of the specified properties.

Integer data is embedded as `Int` / `Nat`; `numpy` float arithmetic is
embedded as exact real arithmetic (`Real`), except where a claim hinges on
IEEE special values (non-finite results of Sinkhorn balancing), where an
explicit special-value model `FV` with exact rational finite part is used.
Mutable `numpy` arrays are embedded as lists updated with `List.set`, or as
total functions updated pointwise; random draws are an explicit stream.
-/

namespace BinaryMatrix

/-! ## conjugate (BinaryMatrix.py lines 114-130)

`cc = np.zeros(n)`; first phase buckets each entry `k` of `c`:
`k >= n` into `cc[n-1]`, `1 <= k < n` into `cc[k-1]`; second phase replaces
`cc[j]` by the suffix sum `cc[j] + ... + cc[n-1]` (running variable `s`,
`for j in range(n-2,-1,-1)`). -/

/-- First phase of `conjugate`: the histogram loop `for j, k in enumerate(c)`. -/
def conjugateHist (c : List Int) (n : Nat) : List Int :=
  c.foldl
    (fun cc k =>
      if (n : Int) ≤ k then cc.set (n - 1) (cc.getD (n - 1) 0 + 1)
      else if 1 ≤ k then cc.set (k.toNat - 1) (cc.getD (k.toNat - 1) 0 + 1)
      else cc)
    (List.replicate n 0)

/-- Second phase of `conjugate`: `s = cc[n-1]; for j in range(n-2,-1,-1): s += cc[j]; cc[j] = s`.
`conjugateAccum cc j s` runs the body for indices `j, j-1, ..., 0` with running sum `s`. -/
def conjugateAccum (j : Nat) (s : Int) (cc : List Int) : List Int :=
  let s' := s + cc.getD j 0
  let cc' := cc.set j s'
  match j with
  | 0 => cc'
  | j' + 1 => conjugateAccum j' s' cc'

/-- `conjugate(c, n)` from the source: histogram then suffix accumulation.
For `n = 0` the source indexes `cc[-1]` of an empty array (an error); we
return `[]`, and no claim concerns `n = 0`. -/
def conjugate (c : List Int) (n : Nat) : List Int :=
  let cc := conjugateHist c n
  match n with
  | 0 => []
  | 1 => cc
  | n' + 2 => conjugateAccum n' (cc.getD (n' + 1) 0) cc

/-! ## check_margins (lines 20-32)

The source asserts: `r >= 0`, `c >= 0`, `sum(r) == sum(c)`, then computes
`cc = conjugate(c, len(c))` and `cd = c[np.argsort(-c)]` (the sorted copy
`cd` is dead: never used afterwards), and asserts `sum(c) == sum(cc)` and
`np.all(np.cumsum(c) <= np.cumsum(cc))` — with the *unsorted* `c`.
`true` means all assertions pass; `false` means an assertion fires
(the `InfeasibleMargins` signal). -/

/-- Prefix sums: `np.cumsum`. -/
def cumsum (l : List Int) : List Int :=
  (List.range l.length).map (fun k => ((l.take (k + 1)).sum))

/-- Pointwise `np.all(a <= b)` on equal-length integer lists. -/
def allLe (a b : List Int) : Bool :=
  (List.zip a b).all (fun p => p.1 ≤ p.2)

/-- `check_margins(r, c)`: `true` iff every assertion in the source passes. -/
def checkMargins (r c : List Int) : Bool :=
  r.all (fun x => 0 ≤ x) && c.all (fun x => 0 ≤ x) &&
  (r.sum = c.sum : Bool) &&
  (let cc := conjugate c c.length
   (c.sum = cc.sum : Bool) && allLe (cumsum c) (cumsum cc))

/-! ## Feasibility: existence of a binary matrix with given margins -/

/-- Row sums of a `Bool` matrix, as integers. -/
def rowSum {m n : Nat} (M : Fin m → Fin n → Bool) (i : Fin m) : Int :=
  ((List.finRange n).map (fun j => if M i j then (1 : Int) else 0)).sum

/-- Column sums of a `Bool` matrix, as integers. -/
def colSum {m n : Nat} (M : Fin m → Fin n → Bool) (j : Fin n) : Int :=
  ((List.finRange m).map (fun i => if M i j then (1 : Int) else 0)).sum

/-- A binary matrix with row margins `r` and column margins `c` exists. -/
def existsBinaryMatrix (r c : List Int) : Prop :=
  ∃ M : Fin r.length → Fin c.length → Bool,
    (∀ i, rowSum M i = r.get i) ∧ (∀ j, colSum M j = c.get j)

instance (r c : List Int) : Decidable (existsBinaryMatrix r c) := by
  unfold existsBinaryMatrix
  infer_instance

/-! ## arbitrary_from_margins (lines 43-80) -/

/-- Stable insertion of `x` into `l`: `x` goes in front of the first element
`y` with `before x y`; among elements it does not strictly precede it stays
behind, which gives the stability of `np.argsort`. -/
def stableInsert {α : Type} (before : α → α → Prop) [DecidableRel before] (x : α) :
    List α → List α
  | [] => [x]
  | y :: rest => if before x y then x :: y :: rest else y :: stableInsert before x rest

/-- Stable sort by the strict precedence relation `before` (insertion sort,
elements processed left to right). -/
def stableSort {α : Type} (before : α → α → Prop) [DecidableRel before] (l : List α) :
    List α :=
  l.foldl (fun acc x => stableInsert before x acc) []

/-- `np.argsort(-c)` on an integer vector: indices sorted by value descending,
ties by index ascending. -/
def argsortIntDesc (c : List Int) : List Nat :=
  stableSort (fun i j => c.getD j 0 < c.getD i 0) (List.range c.length)

/-- `np.argsort(o)` for a permutation-valued integer-free index list `o`
(ascending, ties impossible); used to invert a permutation. -/
def argsortNatAsc (o : List Nat) : List Nat :=
  stableSort (fun i j => o.getD i 0 < o.getD j 0) (List.range o.length)

/-- One swap step plus termination test of the `while not np.all(col == c)`
loop of `arbitrary_from_margins` (lines 64-71), with explicit fuel.
`np.where(...)[0][0]` on an empty index set is an error, embedded as `none`. -/
def swapLoop (c : List Int) : Nat → List (List Bool) → List Int → Option (List (List Bool))
  | 0, _, _ => none
  | fuel + 1, A, col =>
    if col = c then some A
    else
      match (List.zip col c).findIdx? (fun p => decide (p.2 < p.1)),
            (List.zip col c).findIdx? (fun p => decide (p.1 < p.2)) with
      | some j, some k =>
        match A.findIdx? (fun row => row.getD j false && !(row.getD k false)) with
        | some i =>
          let row := A.getD i []
          swapLoop c fuel (A.set i ((row.set j false).set k true))
            ((col.set j (col.getD j 0 - 1)).set k (col.getD k 0 + 1))
        | none => none
      | _, _ => none

/-- `arbitrary_from_margins(r, c)`: margin check, column sort, maximal
staircase matrix, swap loop, unsort, final assertions. `none` embeds a raised
exception (failed assertion / stuck swap search) or exhausted fuel. -/
def arbitraryFromMargins (r c : List Int) (fuel : Nat) : Option (List (List Bool)) :=
  if checkMargins r c = false then none
  else
    let m := r.length
    let n := c.length
    let o := argsortIntDesc c
    let oo := argsortNatAsc o
    let csort := o.map (fun j => c.getD j 0)
    let cUnsorted := oo.map (fun j => csort.getD j 0)
    let A0 := (List.range m).map (fun i => (List.range n).map (fun j => ((j : Int) < r.getD i 0 : Bool)))
    let col0 := (List.range n).map (fun j =>
      ((List.range m).map (fun i => if (A0.getD i []).getD j false then (1 : Int) else 0)).sum)
    match swapLoop csort fuel A0 col0 with
    | some A =>
      let Afinal := A.map (fun row => oo.map (fun j => row.getD j false))
      if (List.range m).all (fun i =>
            ((Afinal.getD i []).map (fun b => if b then (1 : Int) else 0)).sum = r.getD i 0) &&
         (List.range n).all (fun j =>
            ((List.range m).map (fun i =>
              if (Afinal.getD i []).getD j false then (1 : Int) else 0)).sum = cUnsorted.getD j 0)
      then some Afinal
      else none
    | none => none

/-! ## canonical_scalings with IEEE special values (lines 88-112)

An all-zero row makes the very first division `M / r` produce `inf`, after
which `inf/inf = nan` propagates.  Exact real arithmetic cannot express
this, so the balancing routine is embedded over `FV`: IEEE-754 double
special values with an exact rational finite part (no rounding occurs in
the runs of interest).  The rules below are the IEEE rules numpy uses:
`nan` absorbs, `inf * 0 = nan`, `inf/inf = nan`, `x/0 = ±inf` for `x ≠ 0`,
`0/0 = nan`, and every comparison with `nan` is false. -/

/-- A numpy float: `nan`, `±inf`, or a finite value (exact rational). -/
inductive FV where
  | nan : FV
  | inf : FV
  | ninf : FV
  | fin : Rat → FV
deriving DecidableEq

namespace FV

def add : FV → FV → FV
  | nan, _ => nan
  | _, nan => nan
  | inf, ninf => nan
  | ninf, inf => nan
  | inf, _ => inf
  | _, inf => inf
  | ninf, _ => ninf
  | _, ninf => ninf
  | fin x, fin y => fin (x + y)

def neg : FV → FV
  | nan => nan
  | inf => ninf
  | ninf => inf
  | fin x => fin (-x)

def sub (a b : FV) : FV := add a (neg b)

def mul : FV → FV → FV
  | nan, _ => nan
  | _, nan => nan
  | inf, inf => inf
  | inf, ninf => ninf
  | ninf, inf => ninf
  | ninf, ninf => inf
  | inf, fin y => if y = 0 then nan else if 0 < y then inf else ninf
  | fin x, inf => if x = 0 then nan else if 0 < x then inf else ninf
  | ninf, fin y => if y = 0 then nan else if 0 < y then ninf else inf
  | fin x, ninf => if x = 0 then nan else if 0 < x then ninf else inf
  | fin x, fin y => fin (x * y)

def div : FV → FV → FV
  | nan, _ => nan
  | _, nan => nan
  | inf, inf => nan
  | inf, ninf => nan
  | ninf, inf => nan
  | ninf, ninf => nan
  | inf, fin y => if y < 0 then ninf else inf
  | ninf, fin y => if y < 0 then inf else ninf
  | fin _, inf => fin 0
  | fin _, ninf => fin 0
  | fin x, fin y =>
    if y = 0 then (if x = 0 then nan else if 0 < x then inf else ninf)
    else fin (x / y)

def abs : FV → FV
  | nan => nan
  | inf => inf
  | ninf => inf
  | fin x => fin |x|

/-- `a > b` as numpy evaluates it: false whenever either side is `nan`. -/
def gt : FV → FV → Bool
  | nan, _ => false
  | _, nan => false
  | inf, inf => false
  | inf, _ => true
  | ninf, _ => false
  | fin _, inf => false
  | fin _, ninf => true
  | fin x, fin y => decide (y < x)

/-- `a >= b` as numpy evaluates it: false whenever either side is `nan`. -/
def ge : FV → FV → Bool
  | nan, _ => false
  | _, nan => false
  | inf, _ => true
  | ninf, ninf => true
  | ninf, _ => false
  | fin _, inf => false
  | fin _, ninf => true
  | fin x, fin y => decide (y ≤ x)

/-- `np.sum` of a vector of floats. -/
def vsum (l : List FV) : FV := l.foldl add (fin 0)

end FV

/-- Convergence tolerance of `canonical_scalings`: `tol = 1e-8`. -/
def tolFV : FV := FV.fin (1 / 100000000)

/-- The `while tol_check > tol` body of `canonical_scalings` (lines 103-110)
on the float model: compute `a_new`, `b_new`, the tolerance, reassign,
re-test.  The initial `tol_check = np.Inf` makes the source loop a
do-while, which is what this recursion implements. -/
def sinkhornStepFV (w : List (List FV)) (m n : Nat) :
    Nat → List FV → List FV → Option (List FV × List FV)
  | 0, _, _ => none
  | fuel + 1, a, b =>
    let aNewRaw := w.map (fun row =>
      FV.div (FV.fin n) (FV.vsum ((List.zip row b).map (fun p => FV.mul p.1 p.2))))
    let aMean := FV.div (FV.vsum aNewRaw) (FV.fin m)
    let aNew := aNewRaw.map (fun x => FV.div x aMean)
    let bNew := (List.range n).map (fun j =>
      FV.div (FV.fin m)
        (FV.vsum ((List.zip aNew w).map (fun p => FV.mul p.1 ((p.2).getD j (FV.fin 0))))))
    let tolCheck :=
      FV.add (FV.vsum ((List.zip a aNew).map (fun p => FV.abs (FV.sub p.1 p.2))))
        (FV.vsum ((List.zip b bNew).map (fun p => FV.abs (FV.sub p.1 p.2))))
    if FV.gt tolCheck tolFV then sinkhornStepFV w m n fuel aNew bNew
    else some (aNew, bNew)

/-- `canonical_scalings(w)` on the float model: assert `w >= 0`, initialize
`a` (rows), re-center by the mean, initialize `b` (columns), then iterate.
`none` embeds a failed assertion or an exhausted fuel bound; `some` is a
normal return. -/
def canonicalScalingsFV (w : List (List FV)) (fuel : Nat) : Option (List FV × List FV) :=
  if ¬ (w.all (fun row => row.all (fun x => FV.ge x (FV.fin 0)))) then none
  else
    let m := w.length
    let n := (w.headD []).length
    let rsums := w.map FV.vsum
    let a0raw := rsums.map (fun rv => FV.div (FV.fin n) rv)
    let a0mean := FV.div (FV.vsum a0raw) (FV.fin m)
    let a0 := a0raw.map (fun x => FV.div x a0mean)
    let b0 := (List.range n).map (fun j =>
      FV.div (FV.fin m)
        (FV.vsum ((List.zip a0 w).map (fun p => FV.mul p.1 ((p.2).getD j (FV.fin 0))))))
    sinkhornStepFV w m n fuel a0 b0

/-! ## The forward-table update of approximate_from_margins_weights
(lines 202-212)

`G` holds log-space values in `ℝ ∪ {-∞}`, embedded as `EReal` (`⊥ = -np.inf`;
`⊤` never arises).  The update reads `b = G[k-1,i,j] + wij`, `a = G[k,i,j]`,
skips when both are `-inf` (leaving the initialized `-inf` in place), and
otherwise stores `a + np.logaddexp(1.0, b-a)` when `a > b`, else
`b + np.logaddexp(1.0, a-b)`. -/

/-- `np.exp` on a log-space value: `exp(-inf) = 0`.  (`⊤` is unreachable in
the log-space table; the value there is irrelevant junk.) -/
noncomputable def expE (x : EReal) : ℝ :=
  if x = ⊥ then 0 else Real.exp x.toReal

/-- `np.logaddexp(1.0, t) = log(exp 1 + exp t)`, exactly as the source calls
it (first argument the literal `1.0`). -/
noncomputable def logaddexp1 (t : EReal) : ℝ :=
  Real.log (Real.exp 1 + expE t)

/-- One combine step of the `G` recurrence (lines 206-212): the value the
source stores into `G[k,i,j-1]` given `a = G[k,i,j]` and
`b = G[k-1,i,j] + log w(i,j)`. -/
noncomputable def gCombine (a b : EReal) : EReal :=
  if a = ⊥ ∧ b = ⊥ then ⊥
  else if b < a then ((a.toReal + logaddexp1 (b - a) : ℝ) : EReal)
  else ((b.toReal + logaddexp1 (a - b) : ℝ) : EReal)

/-! ## canonical_scalings over exact reals (used inside the sampler) -/

/-- The `while tol_check > tol` body of `canonical_scalings` over exact
reals, fueled; the initial `tol_check = np.Inf` makes the source loop
execute at least once, hence the do-while recursion. -/
noncomputable def sinkhornStep (w : List (List ℝ)) (m n : ℕ) :
    Nat → List ℝ → List ℝ → Option (List ℝ × List ℝ)
  | 0, _, _ => none
  | fuel + 1, a, b =>
    let aNewRaw := w.map (fun row => (n : ℝ) / ((List.zip row b).map (fun p => p.1 * p.2)).sum)
    let aMean := aNewRaw.sum / (m : ℝ)
    let aNew := aNewRaw.map (fun x => x / aMean)
    let bNew := (List.range n).map (fun j =>
      (m : ℝ) / ((List.zip aNew w).map (fun p => p.1 * ((p.2).getD j 0))).sum)
    let tolCheck := ((List.zip a aNew).map (fun p => |p.1 - p.2|)).sum
      + ((List.zip b bNew).map (fun p => |p.1 - p.2|)).sum
    if tolCheck > 1 / 100000000 then sinkhornStep w m n fuel aNew bNew
    else some (aNew, bNew)

/-- `canonical_scalings(w)` over exact reals (lines 88-112): assert
`w >= 0`, initialize `a` from row sums, re-center, initialize `b`, iterate. -/
noncomputable def canonicalScalings (w : List (List ℝ)) (fuel : Nat) :
    Option (List ℝ × List ℝ) :=
  if ∀ row ∈ w, ∀ x ∈ row, (0 : ℝ) ≤ x then
    let m := w.length
    let n := (w.headD []).length
    let a0raw := w.map (fun row => (n : ℝ) / row.sum)
    let a0mean := a0raw.sum / (m : ℝ)
    let a0 := a0raw.map (fun x => x / a0mean)
    let b0 := (List.range n).map (fun j =>
      (m : ℝ) / ((List.zip a0 w).map (fun p => p.1 * ((p.2).getD j 0))).sum)
    sinkhornStep w m n fuel a0 b0
  else none

/-! ## approximate_from_margins_weights (lines 166-448)

Embedding conventions: the mutable arrays `SS` (length `M`) and `S`
(shape `(M, n)`) are embedded as total functions `ℤ → ℝ` and
`ℤ → ℕ → ℝ` updated pointwise (all indices used by the source are
in range on its non-crashing paths); the mutable margin copy `r`,
`rndx`, `irndx`, `cconj` and `B_sample_sparse` are lists; the stream of
`np.random.random()` draws is a function `ℕ → ℝ` consumed at a cursor `t`
carried in the state.  The Python variable `SSS` lives in function scope
across columns, hence the `lastSSS` state field. -/

/-- `np.spacing(0)`: the smallest positive subnormal double, `2^-1074`. -/
noncomputable def eps0 : ℝ := ((2 : ℝ) ^ (1074 : ℕ))⁻¹

/-- Column mean of the balanced weight matrix (for `wopt.var(0)`). -/
noncomputable def colMean (wopt : List (List ℝ)) (m j : ℕ) : ℝ :=
  ((wopt.map (fun row => row.getD j 0)).sum) / (m : ℝ)

/-- Population variance `np.var` of column `j` of `wopt`. -/
noncomputable def colVar (wopt : List (List ℝ)) (m j : ℕ) : ℝ :=
  ((wopt.map (fun row => (row.getD j 0 - colMean wopt m j) ^ 2)).sum) / (m : ℝ)

/-- `np.lexsort((-c, -var))`: stable ascending sort by primary key `-var`,
secondary key `-c` — i.e. descending variance, ties by descending margin,
remaining ties by index. -/
noncomputable def lexsortCols (colvar : ℕ → ℝ) (c : List ℤ) (n : ℕ) : List ℕ :=
  stableSort (fun i j => colvar j < colvar i ∨ (colvar i = colvar j ∧ c.getD j 0 < c.getD i 0))
    (List.range n)

/-- Initial forward table (lines 199-201): `G = tile(-inf, (r_max+1, m, n-1))`,
`G[0,:,:] = 0`, `G[1,:,n-2] = logwopt[:,n-1]`. -/
noncomputable def buildGInit (n : ℕ) (logw : ℕ → ℕ → ℝ) : ℕ → ℕ → ℕ → EReal :=
  fun k i j =>
    if k = 0 then ((0 : ℝ) : EReal)
    else if k = 1 ∧ j = n - 2 then ((logw i (n - 1) : ℝ) : EReal)
    else ⊥

/-- Pointwise update of the table. -/
def gUpdate (G : ℕ → ℕ → ℕ → EReal) (k i j : ℕ) (v : EReal) : ℕ → ℕ → ℕ → EReal :=
  fun k' i' j' => if k' = k ∧ i' = i ∧ j' = j then v else G k' i' j'

/-- The `for k in range(1, ri+1)` recurrence at row `i`, column `j`
(lines 204-212), writing into `G[k,i,j-1]`. -/
noncomputable def buildGRowCol (wij : ℝ) (i j : ℕ) (ri : ℤ)
    (G0 : ℕ → ℕ → ℕ → EReal) : ℕ → ℕ → ℕ → EReal :=
  (List.range ri.toNat).foldl
    (fun G t =>
      let k := t + 1
      let b := G (k - 1) i j + ((wij : ℝ) : EReal)
      let a := G k i j
      if a = ⊥ ∧ b = ⊥ then G
      else gUpdate G k i (j - 1) (gCombine a b))
    G0

/-- The probability-ratio transformation of row `i` (lines 213-225):
`G[k,i,j] := w * exp(G[k]-G[k+1]) * ((n-j-k-1)/(k+1))`, or the sentinel
`-1.0` when the denominator is `-inf`; then the "tricky idiom" writes the
sentinel into `G[r_max,i,j]` when the last denominator was `-inf`. -/
noncomputable def transformGRow (wopt : ℕ → ℕ → ℝ) (n rmax i : ℕ)
    (G0 : ℕ → ℕ → ℕ → EReal) : ℕ → ℕ → ℕ → EReal :=
  (List.range (n - 1)).foldl
    (fun G j =>
      let G' := (List.range rmax).foldl
        (fun G k =>
          let Gnum := G k i j
          let Gden := G (k + 1) i j
          if Gden = ⊥ then gUpdate G k i j (((-1 : ℝ) : EReal))
          else gUpdate G k i j
            (((wopt i j * expE (Gnum - Gden)
              * (((n : ℝ) - (j : ℝ) - (k : ℝ) - 1) / ((k : ℝ) + 1)) : ℝ) : EReal)))
        G
      if G' rmax i j = ⊥ then gUpdate G' rmax i j (((-1 : ℝ) : EReal)) else G')
    G0

/-- The full `G` computation (lines 198-225): initialization, then for each
row `i` the backward recurrence over columns `j = n-2, ..., 1` followed by
the transformation of that row. -/
noncomputable def buildG (r : List ℤ) (m n rmax : ℕ) (wopt logw : ℕ → ℕ → ℝ) :
    ℕ → ℕ → ℕ → EReal :=
  (List.range m).foldl
    (fun G i =>
      let ri := r.getD i 0
      let Grec := ((List.range (n - 2)).map (fun t => n - 2 - t)).foldl
        (fun G j => buildGRowCol (logw i j) i j ri G) G
      transformGRow wopt n rmax i Grec)
    (buildGInit n logw)

/-- Per-column context of the DP over rows (the variables of lines 315-364
that are fixed during the row loop). -/
structure DPCtx where
  G : ℕ → ℕ → ℕ → EReal
  c1 : ℕ
  cconj : List ℤ
  r : List ℤ
  rndx : List ℕ
  n : ℕ
  count : ℤ
  m : ℕ
  weightA : ℝ

/-- Mutable variables of the DP over rows. -/
structure DPState where
  smin : ℤ
  smax : ℤ
  cumsums : ℤ
  cumconj : ℤ
  SS : ℤ → ℝ
  S : ℤ → ℕ → ℝ
  SSS : ℝ

/-- One iteration of `for i in reversed(range(m))` (lines 315-358), up to
and including the `SS[smax+2] = 0` write and the computation of `SSS`;
the `SSS <= 0` test and the normalization are done by the caller. -/
noncomputable def dpRowCore (dc : DPCtx) (i : ℕ) (d : DPState) : DPState :=
  let rlabel := dc.rndx.getD i 0
  let val := dc.r.getD rlabel 0
  let p1 := (val : ℝ) * Real.exp (dc.weightA * (1 - 2 * ((val : ℝ) - (dc.count : ℝ) / (dc.m : ℝ))))
  let p := p1 / ((dc.n : ℝ) + 1 - (val : ℝ) + p1)
  let q := 1 - p
  let pq : ℝ × ℝ :=
    if 0 < dc.n ∧ 0 < val then
      let Gk := dc.G (val - 1).toNat rlabel dc.c1
      if Gk < 0 then (p, 0) else (p * Gk.toReal, q)
    else (p, q)
  let cumsums := d.cumsums - val
  let cumconj := d.cumconj - dc.cconj.getD i 0
  let smin := max 0 (max (cumsums - cumconj) (d.smin - 1))
  let smax := min d.smax (i : ℤ)
  let SS1 : ℤ → ℝ := fun jj => if jj = smin then 0 else d.SS jj
  let SSS := ((List.range (smax + 2 - (smin + 1)).toNat).map (fun tt =>
      let jj := smin + 1 + (tt : ℤ)
      SS1 jj * pq.2 + SS1 (jj + 1) * pq.1)).sum
  let SS2 : ℤ → ℝ := fun jj =>
    if smin + 1 ≤ jj ∧ jj ≤ smax + 1 then SS1 jj * pq.2 + SS1 (jj + 1) * pq.1 else SS1 jj
  let S2 : ℤ → ℕ → ℝ := fun jj i' =>
    if i' = i ∧ smin + 1 ≤ jj ∧ jj ≤ smax + 1 then
      (SS1 (jj + 1) * pq.1) / ((SS1 jj * pq.2 + SS1 (jj + 1) * pq.1) + eps0)
    else d.S jj i'
  let SS3 : ℤ → ℝ := fun jj => if jj = smax + 2 then 0 else SS2 jj
  { smin := smin, smax := smax, cumsums := cumsums, cumconj := cumconj,
    SS := SS3, S := S2, SSS := SSS }

/-- The `SS[(smin+1):(smax+2)] /= SSS` normalization (line 364). -/
noncomputable def dpNormalize (d : DPState) : DPState :=
  { d with SS := fun jj =>
      if d.smin + 1 ≤ jj ∧ jj ≤ d.smax + 1 then d.SS jj / d.SSS else d.SS jj }

/-- The row loop of the per-column DP, with the `if SSS <= 0: break` of
line 361 (the breaking row is not normalized). -/
noncomputable def dpLoop (dc : DPCtx) : List ℕ → DPState → DPState
  | [], d => d
  | i :: rest, d =>
    let d' := dpRowCore dc i d
    if d'.SSS ≤ 0 then d' else dpLoop dc rest (dpNormalize d')

/-- Mutable variables of the per-column sampling pass (lines 369-398). -/
structure SampState where
  j : ℤ
  place : ℤ
  B : List (ℤ × ℤ)
  r : List ℤ
  rcount2 : ℤ
  rcount2c : ℤ
  rcount3c : ℤ
  t : ℕ

/-- The sampling pass `for i in range(m)` of one column: draw against
`S[j,i]`; on success decrement the row margin, record `(rlabel, label)` at
`place+1`, advance `j`, and break at `j == jmax`.  One draw is consumed per
visited row. -/
noncomputable def samplingLoop (S : ℤ → ℕ → ℝ) (stream : ℕ → ℝ) (rndx : List ℕ)
    (label jmax : ℤ) : List ℕ → SampState → SampState
  | [], s => s
  | i :: rest, s =>
    let p := S s.j i
    let d := stream s.t
    let s1 := { s with t := s.t + 1 }
    if d < p then
      let rlabel := rndx.getD i 0
      let val := s1.r.getD rlabel 0
      let s2 : SampState :=
        { j := s1.j + 1,
          place := s1.place + 1,
          B := s1.B.set (s1.place + 1).toNat ((rlabel : ℤ), label),
          r := s1.r.set rlabel (val - 1),
          rcount2 := s1.rcount2 - (2 * val - 1),
          rcount2c := s1.rcount2c - (2 * val - 2),
          rcount3c := s1.rcount3c - 3 * (val - 1) * (val - 2),
          t := s1.t }
      if s2.j = jmax then s2 else samplingLoop S stream rndx label jmax rest s2
    else samplingLoop S stream rndx label jmax rest s1

/-- The `while irndxk1 < m and r[rndx[irndxk1]] > val: irndxk1 += 1` search
of the re-sort (lines 425-426), with fuel `m`. -/
def resortAdvance (r : List ℤ) (rndx : List ℕ) (m : ℕ) (val : ℤ) :
    ℕ → ℕ → ℕ
  | 0, pos => pos
  | fuel + 1, pos =>
    if pos < m ∧ val < r.getD (rndx.getD pos 0) 0 then
      resortAdvance r rndx m val fuel (pos + 1)
    else pos

/-- One iteration of the re-sort loop (lines 412-434) for entry `jj` of
`B_sample_sparse`, acting on `(rndx, irndx)`. -/
def resortStep (B : List (ℤ × ℤ)) (r : List ℤ) (m : ℕ)
    (st : List ℕ × List ℕ) (jj : ℤ) : List ℕ × List ℕ :=
  let k := (B.getD jj.toNat ((-1 : ℤ), (-1 : ℤ))).1.toNat
  let val := r.getD k 0
  let irndxk := st.2.getD k 0
  let i1 := irndxk + 1
  if m ≤ i1 ∨ r.getD (st.1.getD i1 0) 0 ≤ val then st
  else
    let i2 := resortAdvance r st.1 m val m (i1 + 1) - 1
    let rndxk1 := st.1.getD i2 0
    ((st.1.set irndxk rndxk1).set i2 k, (st.2.set k i2).set rndxk1 irndxk)

/-- `for j in range(place, placestart-1, -1)`: fold the re-sort step over
the descending indices of the entries recorded in this column. -/
def resortLoop (B : List (ℤ × ℤ)) (r : List ℤ) (m : ℕ) (idxs : List ℤ)
    (rndx irndx : List ℕ) : List ℕ × List ℕ :=
  idxs.foldl (resortStep B r m) (rndx, irndx)

/-- Why the column loop stopped. -/
inductive ExitKind where
  /-- `for c1 in range(n)` ran to completion. -/
  | completed : ExitKind
  /-- `if colval == 0 or count == 0: break` (line 282). -/
  | zeroBreak : ExitKind
  /-- `if SSS <= 0: break` (line 367). -/
  | ssBreak : ExitKind
  /-- `if count == 0: break` (line 401). -/
  | countBreak : ExitKind
deriving DecidableEq

/-- Read-only context of the column loop. -/
structure SamplerCtx where
  m : ℕ
  csort : List ℤ
  cndx : List ℕ
  G : ℕ → ℕ → ℕ → EReal
  stream : ℕ → ℝ

/-- The function-scope mutable variables of `approximate_from_margins_weights`. -/
structure SamplerState where
  r : List ℤ
  rndx : List ℕ
  irndx : List ℕ
  cconj : List ℤ
  count : ℤ
  ccount2 : ℤ
  ccount2c : ℤ
  ccount3c : ℤ
  rcount2 : ℤ
  rcount2c : ℤ
  rcount3c : ℤ
  n : ℕ
  S : ℤ → ℕ → ℝ
  SS : ℤ → ℝ
  B : List (ℤ × ℤ)
  place : ℤ
  t : ℕ
  lastSSS : ℝ

/-- One iteration of `for c1 in range(n)` (lines 274-446): column
inspection and the zero/count break, conjugate and bookkeeping updates, the
`SS` re-initialization, `weightA`, the row DP with the `SSS <= 0` break,
the sampling pass, the `count == 0` break, and the re-sort. -/
noncomputable def columnStep (ctx : SamplerCtx) (c1 : ℕ) (st : SamplerState) :
    SamplerState × Option ExitKind :=
  let placestart := st.place + 1
  let label : ℤ := (ctx.cndx.getD c1 0 : ℤ)
  let colval := ctx.csort.getD c1 0
  if colval = 0 ∨ st.count = 0 then (st, some .zeroBreak)
  else
    let cconj := st.cconj.mapIdx (fun idx x => if (idx : ℤ) < colval then x - 1 else x)
    let n := st.n - 1
    let count := st.count - colval
    let ccount2 := st.ccount2 - colval ^ 2
    let ccount2c := st.ccount2c - colval * (colval - 1)
    let ccount3c := st.ccount3c - colval * (colval - 1) * (colval - 2)
    let SS0 : ℤ → ℝ := fun jj =>
      if jj = colval then 0 else if jj = colval + 1 then 1 else if jj = colval + 2 then 0
      else st.SS jj
    let weightA : ℝ :=
      if count = 0 ∨ (ctx.m * n : ℤ) = count then 0
      else
        let wA : ℝ := (ctx.m : ℝ) * (n : ℝ) / ((count : ℝ) * ((ctx.m : ℝ) * (n : ℝ) - (count : ℝ)))
        wA * (1 - wA * ((ccount2 : ℝ) - (count : ℝ) ^ 2 / (n : ℝ))) / 2
    let d0 : DPState :=
      { smin := colval, smax := colval, cumsums := st.count,
        cumconj := st.count - colval, SS := SS0, S := st.S, SSS := st.lastSSS }
    let dfin := dpLoop ⟨ctx.G, c1, cconj, st.r, st.rndx, n, count, ctx.m, weightA⟩
      ((List.range ctx.m).reverse) d0
    let stAfterDP :=
      { st with
        cconj := cconj, n := n, count := count, ccount2 := ccount2,
        ccount2c := ccount2c, ccount3c := ccount3c, SS := dfin.SS, S := dfin.S,
        lastSSS := dfin.SSS }
    if dfin.SSS ≤ 0 then (stAfterDP, some .ssBreak)
    else
      let jmax := colval + 1
      let s0 : SampState :=
        { j := 1, place := st.place, B := st.B, r := st.r,
          rcount2 := st.rcount2, rcount2c := st.rcount2c, rcount3c := st.rcount3c,
          t := st.t }
      let sfin := if (1 : ℤ) < jmax then
          samplingLoop dfin.S ctx.stream st.rndx label jmax (List.range ctx.m) s0
        else s0
      let st2 :=
        { stAfterDP with
          r := sfin.r, B := sfin.B, place := sfin.place, t := sfin.t,
          rcount2 := sfin.rcount2, rcount2c := sfin.rcount2c, rcount3c := sfin.rcount3c }
      if st2.count = 0 then (st2, some .countBreak)
      else
        let idxs : List ℤ := (List.range ((sfin.place + 1 - placestart).toNat)).map
          (fun tt => sfin.place - (tt : ℤ))
        let pr := resortLoop st2.B st2.r ctx.m idxs st2.rndx st2.irndx
        ({ st2 with rndx := pr.1, irndx := pr.2 }, none)

/-- The column loop, propagating the first break. -/
noncomputable def columnLoop (ctx : SamplerCtx) : List ℕ → SamplerState → SamplerState × ExitKind
  | [], st => (st, .completed)
  | c1 :: rest, st =>
    match columnStep ctx c1 st with
    | (st', some e) => (st', e)
    | (st', none) => columnLoop ctx rest st'

/-- `approximate_from_margins_weights(r, c, w)` up to the final state and
exit kind: margin check, shape assertion, balancing, row/column sorting,
`G` computation, the running totals, the sparse output array, and the
column loop.  `none` embeds a raised exception (failed `check_margins` or
shape assertion, non-terminating balancing within `fuel`, or the
`IndexError` that `G[1,:,n-2]` raises when `n < 2` or `max(r) = 0`). -/
noncomputable def approximateRun (r c : List ℤ) (w : List (List ℝ)) (stream : ℕ → ℝ)
    (fuel : ℕ) : Option (SamplerState × ExitKind) :=
  if checkMargins r c = false then none
  else if ¬ (w.length = r.length ∧ ∀ row ∈ w, row.length = c.length) then none
  else
    match canonicalScalings w fuel with
    | none => none
    | some ab =>
      let m := r.length
      let n := c.length
      let rmax := (r.foldl max 0).toNat
      if n < 2 ∨ rmax = 0 then none
      else
        let rndx := argsortIntDesc r
        let wopt0 : List (List ℝ) := (List.range m).map (fun i =>
          (List.range n).map (fun j =>
            ab.1.getD i 0 * ((w.getD i []).getD j 0) * ab.2.getD j 0))
        let cndx := lexsortCols (fun j => colVar wopt0 m j) c n
        let csort := cndx.map (fun j => c.getD j 0)
        let wopt : ℕ → ℕ → ℝ := fun i j => (wopt0.getD i []).getD (cndx.getD j 0) 0
        let logw : ℕ → ℕ → ℝ := fun i j => Real.log (wopt i j)
        let G := buildG r m n rmax wopt logw
        let irndx := argsortNatAsc rndx
        let cconj := conjugate csort m
        let rsort := rndx.map (fun i => r.getD i 0)
        let count := rsort.sum
        let st0 : SamplerState :=
          { r := r, rndx := rndx, irndx := irndx, cconj := cconj, count := count,
            ccount2 := (csort.map (fun x => x ^ 2)).sum,
            ccount2c := (csort.map (fun x => x * (x - 1))).sum,
            ccount3c := (csort.map (fun x => x * (x - 1) * (x - 2))).sum,
            rcount2 := (rsort.map (fun x => x ^ 2)).sum,
            rcount2c := (rsort.map (fun x => x * (x - 1))).sum,
            rcount3c := (rsort.map (fun x => x * (x - 1) * (x - 2))).sum,
            n := n, S := fun _ _ => 0, SS := fun _ => 0,
            B := List.replicate count.toNat ((-1 : ℤ), (-1 : ℤ)),
            place := -1, t := 0, lastSSS := 0 }
        some (columnLoop ⟨m, csort, cndx, G, stream⟩ (List.range n) st0)

/-- The sparse sample list the caller receives. -/
noncomputable def approximateFromMarginsWeights (r c : List ℤ) (w : List (List ℝ))
    (stream : ℕ → ℝ) (fuel : ℕ) : Option (List (ℤ × ℤ)) :=
  (approximateRun r c w stream fuel).map (fun p => p.1.B)

/-- The caller's view for the frame property: `approximate_from_margins_weights`
copies `r` and `c` (line 170, `r, c = r.copy(), c.copy()`) before any
mutation; every in-place update in the loop targets the copy carried in
`SamplerState` (or freshly allocated arrays), and `w` is only ever read, so
the caller's arrays come back untouched. -/
structure CallerArrays where
  r : List ℤ
  c : List ℤ
  w : List (List ℝ)

/-- The call as the caller sees it: the argument arrays, then the result
computed from the copies. -/
noncomputable def approximateCall (args : CallerArrays) (stream : ℕ → ℝ) (fuel : ℕ) :
    CallerArrays × Option (List (ℤ × ℤ)) :=
  (args, approximateFromMarginsWeights args.r args.c args.w stream fuel)

noncomputable def w4test : List (List ℝ) := [[3/5, 1/2, 19/10], [7/5, 3/2, 1/10]]

noncomputable def w1test : List (List ℝ) := [[1, 1], [1, 1]]

/-- The adversarial draw stream of the C1 refutation: draw 1 refuses the
forced fill (it equals the computed probability `1/(1+eps0) < 1` exactly),
draws 0 accept. -/
noncomputable def stream1test : ℕ → ℝ := fun t => if t = 1 then (1 + eps0)⁻¹ else 0

/-- `S` after the first sampled column of the C1 run. -/
noncomputable def S1fix : ℤ → ℕ → ℝ := fun jj i =>
  if jj = 1 ∧ i = 0 then (1/4) / (1/2 + eps0)
  else if jj = 1 ∧ i = 1 then (1/2) / (1/2 + eps0)
  else 0

/-- `SS` after the first sampled column of the C1 run. -/
noncomputable def SSfix : ℤ → ℝ := fun jj => if jj = 1 then 1 else 0

/-- `S` after the second sampled column of the C1 run: the entry at
`(1,1)` is stale from the first column. -/
noncomputable def S2fix : ℤ → ℕ → ℝ := fun jj i =>
  if jj = 1 ∧ i = 0 then 1 / (1 + eps0)
  else if jj = 1 ∧ i = 1 then (1/2) / (1/2 + eps0)
  else 0

/-- Whether the output contains the sentinel pair `(-1, -1)`. -/
def hasSentinel (B : List (ℤ × ℤ)) : Bool :=
  B.any (fun p => p = ((-1 : ℤ), (-1 : ℤ)))

/-- Invariant of the sparse output array: length `N`, a prefix of real
entries (both components nonnegative) of length `min (place+1) N`, and a
sentinel suffix. -/
def BInv (N : ℕ) (B : List (ℤ × ℤ)) (place : ℤ) : Prop :=
  B.length = N ∧ -1 ≤ place ∧
  ∃ F : List (ℤ × ℤ),
    F.length = min (place + 1).toNat N ∧
    (∀ p ∈ F, 0 ≤ p.1 ∧ 0 ≤ p.2) ∧
    B = F ++ List.replicate (N - F.length) ((-1 : ℤ), (-1 : ℤ))

/-! ## Correctness of `conjugate` -/

lemma length_conjugateHist (c : List Int) (n : Nat) : (conjugateHist c n).length = n := by
  unfold conjugateHist
  suffices h : ∀ cc : List Int, cc.length = n →
      (c.foldl (fun cc k =>
        if (n : Int) ≤ k then cc.set (n - 1) (cc.getD (n - 1) 0 + 1)
        else if 1 ≤ k then cc.set (k.toNat - 1) (cc.getD (k.toNat - 1) 0 + 1)
        else cc) cc).length = n by
    exact h _ (List.length_replicate n 0)
  induction c with
  | nil => intro cc hcc; simpa using hcc
  | cons x xs ih =>
    intro cc hcc
    simp only [List.foldl_cons]
    apply ih
    split <;> [skip; split] <;> simp [hcc]

lemma getD_set_ne (l : List Int) (i j : Nat) (v : Int) (h : i ≠ j) :
    (l.set i v).getD j 0 = l.getD j 0 := by
  simp [List.getD_eq_getElem?_getD, List.getElem?_set_ne h]

lemma getD_set_self (l : List Int) (i : Nat) (v : Int) (h : i < l.length) :
    (l.set i v).getD i 0 = v := by
  simp [List.getD_eq_getElem?_getD, List.getElem?_set_self h]

lemma getD_eq_getElem (l : List Int) (i : Nat) (h : i < l.length) :
    l.getD i 0 = l.get ⟨i, h⟩ := by
  rw [List.getD_eq_getElem?_getD, List.getElem?_eq_getElem h]
  rfl

lemma take_set_of_le (l : List Int) (i n : Nat) (v : Int) (h : n ≤ i) :
    (l.set i v).take n = l.take n := by
  apply List.ext_getElem?
  intro m
  by_cases hm : m < n
  · rw [List.getElem?_take_of_lt hm, List.getElem?_take_of_lt hm,
      List.getElem?_set_ne (by omega)]
  · rw [List.getElem?_take, List.getElem?_take, if_neg hm, if_neg hm]

/-- Incrementing one in-bounds entry adds one to every suffix sum that
contains it. -/
lemma sum_drop_set_incr (l : List Int) (i k : Nat) (hi : i < l.length) :
    ((l.set i (l.getD i 0 + 1)).drop k).sum =
      (l.drop k).sum + (if k ≤ i then 1 else 0) := by
  rw [List.drop_set]
  by_cases hik : i < k
  · rw [if_pos hik, if_neg (by omega)]
    ring
  · rw [if_neg hik, if_pos (by omega)]
    rw [List.sum_set']
    have hlen : i - k < (l.drop k).length := by
      simp [List.length_drop]; omega
    rw [dif_pos hlen]
    have hget : (l.drop k)[i - k] = l.get ⟨i, hi⟩ := by
      rw [List.get_eq_getElem, List.getElem_drop]
      congr 1
      show k + (i - k) = i
      omega
    rw [hget]
    rw [getD_eq_getElem l i hi]
    ring

/-- The histogram phase: for `k < n`, the suffix sum of buckets `k..n-1`
counts the entries of `c` strictly greater than `k`. -/
lemma conjugateHist_drop_sum (c : List Int) (n k : Nat) (hk : k < n) :
    ((conjugateHist c n).drop k).sum = (c.countP (fun x => decide ((k : Int) < x)) : Int) := by
  unfold conjugateHist
  suffices h : ∀ cc : List Int, cc.length = n →
      ((c.foldl (fun cc k =>
        if (n : Int) ≤ k then cc.set (n - 1) (cc.getD (n - 1) 0 + 1)
        else if 1 ≤ k then cc.set (k.toNat - 1) (cc.getD (k.toNat - 1) 0 + 1)
        else cc) cc).drop k).sum
        = (cc.drop k).sum + (c.countP (fun x => decide ((k : Int) < x)) : Int) by
    have := h (List.replicate n 0) (List.length_replicate n 0)
    rw [this]
    simp [List.drop_replicate, List.sum_replicate]
  induction c with
  | nil => intro cc hcc; simp
  | cons x xs ih =>
    intro cc hcc
    simp only [List.foldl_cons]
    by_cases hbig : (n : Int) ≤ x
    · rw [if_pos hbig]
      rw [ih _ (by simp [hcc])]
      rw [sum_drop_set_incr cc (n - 1) k (by omega)]
      have hkx : (k : Int) < x := by
        have : (k : Int) < n := by exact_mod_cast hk
        omega
      have hc : List.countP (fun x => decide ((k : Int) < x)) (x :: xs)
          = List.countP (fun x => decide ((k : Int) < x)) xs + 1 := by
        simp [List.countP_cons, hkx]
      rw [hc, if_pos (by omega)]
      push_cast
      ring
    · rw [if_neg hbig]
      by_cases hone : (1 : Int) ≤ x
      · rw [if_pos hone]
        rw [ih _ (by simp [hcc])]
        rw [sum_drop_set_incr cc (x.toNat - 1) k (by omega)]
        by_cases hkx : (k : Int) < x
        · have hc : List.countP (fun x => decide ((k : Int) < x)) (x :: xs)
              = List.countP (fun x => decide ((k : Int) < x)) xs + 1 := by
            simp [List.countP_cons, hkx]
          rw [hc, if_pos (by omega)]
          push_cast
          ring
        · have hc : List.countP (fun x => decide ((k : Int) < x)) (x :: xs)
              = List.countP (fun x => decide ((k : Int) < x)) xs := by
            simp [List.countP_cons, hkx]
          rw [hc, if_neg (by omega)]
          ring
      · rw [if_neg hone]
        rw [ih _ hcc]
        have hkx : ¬ (k : Int) < x := by omega
        have hc : List.countP (fun x => decide ((k : Int) < x)) (x :: xs)
            = List.countP (fun x => decide ((k : Int) < x)) xs := by
          simp [List.countP_cons, hkx]
        rw [hc]

lemma conjugateAccum_length (j : Nat) (s : Int) (cc : List Int) :
    (conjugateAccum j s cc).length = cc.length := by
  induction j generalizing s cc with
  | zero => simp [conjugateAccum]
  | succ j ih => rw [conjugateAccum]; rw [ih]; simp

lemma conjugateAccum_getD_high (j : Nat) (s : Int) (cc : List Int) (k : Nat) (hk : j < k) :
    (conjugateAccum j s cc).getD k 0 = cc.getD k 0 := by
  induction j generalizing s cc with
  | zero =>
    simp only [conjugateAccum]
    exact getD_set_ne _ _ _ _ (by omega)
  | succ j ih =>
    rw [conjugateAccum]
    rw [ih _ _ (by omega)]
    exact getD_set_ne _ _ _ _ (by omega)

lemma conjugateAccum_getD (j : Nat) (s : Int) (cc : List Int) (k : Nat)
    (hkj : k ≤ j) (hj : j < cc.length) :
    (conjugateAccum j s cc).getD k 0 = s + ((cc.drop k).take (j + 1 - k)).sum := by
  induction j generalizing s cc with
  | zero =>
    interval_cases k
    simp only [conjugateAccum]
    rw [List.getD_eq_getElem?_getD, List.getElem?_set_self (by omega)]
    cases cc with
    | nil => simp at hj
    | cons a l =>
      simp [List.getD_eq_getElem?_getD]
  | succ j ih =>
    rw [conjugateAccum]
    by_cases hkj' : k ≤ j
    · rw [ih _ _ hkj' (by simp; omega)]
      have hslice : (((cc.set (j + 1) (s + cc.getD (j + 1) 0)).drop k).take (j + 1 - k))
          = ((cc.drop k).take (j + 1 - k)) := by
        rw [List.drop_set, if_neg (by omega)]
        exact take_set_of_le _ _ _ _ (by omega)
      rw [hslice]
      have htake : ((cc.drop k).take (j + 1 + 1 - k)).sum
          = ((cc.drop k).take (j + 1 - k)).sum + cc.getD (j + 1) 0 := by
        have h1 : j + 1 + 1 - k = (j + 1 - k) + 1 := by omega
        rw [h1, List.take_succ]
        rw [List.sum_append]
        have hidx : (cc.drop k)[j + 1 - k]? = some (cc.get ⟨j + 1, hj⟩) := by
          rw [List.getElem?_drop]
          rw [List.getElem?_eq_getElem (by omega)]
          rw [List.get_eq_getElem]
          congr 1
          congr 1
          show k + (j + 1 - k) = j + 1
          omega
        rw [hidx]
        simp only [Option.toList_some, List.sum_cons, List.sum_nil, add_zero]
        rw [List.getD_eq_getElem?_getD, List.getElem?_eq_getElem hj]
        rfl
      rw [htake]
      ring
    · have hk1 : k = j + 1 := by omega
      subst hk1
      rw [conjugateAccum_getD_high _ _ _ _ (by omega)]
      rw [List.getD_eq_getElem?_getD, List.getElem?_set_self hj]
      have : j + 1 + 1 - (j + 1) = 1 := by omega
      rw [this]
      have hlt : j + 1 < cc.length := hj
      have : (cc.drop (j + 1)).take 1 = [cc.get ⟨j + 1, hj⟩] := by
        rw [List.take_one]
        rw [List.head?_drop]
        rw [List.getElem?_eq_getElem hj]
        rfl
      rw [this]
      simp [List.getD_eq_getElem?_getD, List.getElem?_eq_getElem hj]

lemma length_conjugate (c : List Int) (n : Nat) (hn : 1 ≤ n) :
    (conjugate c n).length = n := by
  unfold conjugate
  match n, hn with
  | 1, _ => simpa using length_conjugateHist c 1
  | n' + 2, _ =>
    simp only
    rw [conjugateAccum_length]
    exact length_conjugateHist c (n' + 2)

/-- The entries of `conjugate c n` are the suffix sums of the histogram. -/
lemma conjugate_getD (c : List Int) (n k : Nat) (hk : k < n) :
    (conjugate c n).getD k 0 = ((conjugateHist c n).drop k).sum := by
  have hlen := length_conjugateHist c n
  unfold conjugate
  match n, hk with
  | 1, hk =>
    interval_cases k
    simp only
    cases h : conjugateHist c 1 with
    | nil => rw [h] at hlen; simp at hlen
    | cons a l =>
      have : l = [] := by
        rw [h] at hlen; simpa using hlen
      subst this
      simp [h]
  | n' + 2, hk =>
    simp only
    by_cases hkj : k ≤ n'
    · rw [conjugateAccum_getD _ _ _ _ hkj (by omega)]
      have hsplit : ((conjugateHist c (n' + 2)).drop k).sum
          = (((conjugateHist c (n' + 2)).drop k).take (n' + 1 - k)).sum
            + (((conjugateHist c (n' + 2)).drop k).drop (n' + 1 - k)).sum := by
        rw [List.sum_take_add_sum_drop]
      rw [hsplit]
      have hdd : ((conjugateHist c (n' + 2)).drop k).drop (n' + 1 - k)
          = (conjugateHist c (n' + 2)).drop (n' + 1) := by
        rw [List.drop_drop]
        congr 1
        omega
      rw [hdd]
      have hlast : ((conjugateHist c (n' + 2)).drop (n' + 1)).sum
          = (conjugateHist c (n' + 2)).getD (n' + 1) 0 := by
        have h1 : ((conjugateHist c (n' + 2)).drop (n' + 1)).length = 1 := by
          simp [List.length_drop, hlen]
        cases h : (conjugateHist c (n' + 2)).drop (n' + 1) with
        | nil => rw [h] at h1; simp at h1
        | cons a l =>
          have : l = [] := by
            rw [h] at h1; simpa using h1
          subst this
          have ha : (conjugateHist c (n' + 2))[n' + 1]? = some a := by
            have hgd := List.getElem?_drop (conjugateHist c (n' + 2)) (n' + 1) 0
            rw [h] at hgd
            simpa using hgd.symm
          simp [List.getD_eq_getElem?_getD, ha]
      rw [hlast]
      ring
    · have hk1 : k = n' + 1 := by omega
      subst hk1
      rw [conjugateAccum_getD_high _ _ _ _ (by omega)]
      have h1 : ((conjugateHist c (n' + 2)).drop (n' + 1)).length = 1 := by
        simp [List.length_drop, hlen]
      cases h : (conjugateHist c (n' + 2)).drop (n' + 1) with
      | nil => rw [h] at h1; simp at h1
      | cons a l =>
        have : l = [] := by
          rw [h] at h1; simpa using h1
        subst this
        have ha : (conjugateHist c (n' + 2))[n' + 1]? = some a := by
          have hgd := List.getElem?_drop (conjugateHist c (n' + 2)) (n' + 1) 0
          rw [h] at hgd
          simpa using hgd.symm
        simp [List.getD_eq_getElem?_getD, ha]

/-- `conjugate c n` computes `cc[k] = |{j : c[j] > k}|` for every `k < n`. -/
lemma conjugate_spec (c : List Int) (n k : Nat) (hk : k < n) :
    (conjugate c n).getD k 0 = ((c.filter (fun x => decide ((k : Int) < x))).length : Int) := by
  rw [conjugate_getD c n k hk, conjugateHist_drop_sum c n k hk, ← List.countP_eq_length_filter]

/-! ## Claim theorems: conjugate and check_margins -/

/-- C8: for every sequence `c` of non-negative integers and every `n ≥ 1`,
`conjugate(c, n)` has length `n` and its entry at index `k` is the number of
entries of `c` strictly greater than `k` (entries `≥ n` count toward every
index); in particular `conjugate([1,1,1,1,2,8], 10) = [6,2,1,1,1,1,1,1,0,0]`. -/
theorem claim_C8_conjugate_counts_exceedances :
    (∀ (c : List Int) (n : Nat), 1 ≤ n → (∀ x ∈ c, (0 : Int) ≤ x) →
      (conjugate c n).length = n ∧
      ∀ k, k < n →
        (conjugate c n).getD k 0 = ((c.filter (fun x => decide ((k : Int) < x))).length : Int))
    ∧ conjugate [1, 1, 1, 1, 2, 8] 10 = [6, 2, 1, 1, 1, 1, 1, 1, 0, 0] := by
  constructor
  · intro c n hn _
    exact ⟨length_conjugate c n hn, fun k hk => conjugate_spec c n k hk⟩
  · decide

/-- Witness for C8 at the concrete input of the claim. -/
theorem claim_C8_witness :
    (conjugate [1, 1, 1, 1, 2, 8] 10).length = 10 ∧
    ∀ k, k < 10 →
      (conjugate [1, 1, 1, 1, 2, 8] 10).getD k 0
        = (([1, 1, 1, 1, 2, 8].filter (fun x => decide ((k : Int) < x))).length : Int) :=
  claim_C8_conjugate_counts_exceedances.1 [1, 1, 1, 1, 2, 8] 10 (by omega) (by decide)

/-- C2 (refutation): `check_margins` is not a necessary-and-sufficient test.
It accepts `r = [4,4,0]`, `c = [3,3,1,1]` although no binary matrix has these
margins (rows 0 and 1 would have to be all ones, forcing every column sum to
be at least 2, but `c` has entries 1): the final Gale-Ryser prefix test uses
the unsorted `c` against the conjugate of `c` and never consults the values
of `r` beyond the total. -/
theorem claim_C2_check_margins_accepts_infeasible :
    checkMargins [4, 4, 0] [3, 3, 1, 1] = true ∧
    ¬ existsBinaryMatrix [4, 4, 0] [3, 3, 1, 1] := by
  refine ⟨by decide, ?_⟩
  rintro ⟨M, hr, hc⟩
  have h0 := hr ⟨0, by decide⟩
  have h1 := hr ⟨1, by decide⟩
  have hc2 := hc ⟨2, by decide⟩
  simp only [rowSum, colSum,
    show (List.finRange ([3, 3, 1, 1] : List Int).length)
      = [⟨0, by decide⟩, ⟨1, by decide⟩, ⟨2, by decide⟩, ⟨3, by decide⟩] by decide,
    show (List.finRange ([4, 4, 0] : List Int).length)
      = [⟨0, by decide⟩, ⟨1, by decide⟩, ⟨2, by decide⟩] by decide,
    List.map_cons, List.map_nil, List.sum_cons, List.sum_nil,
    show (([4, 4, 0] : List Int).get ⟨0, by decide⟩) = 4 by decide,
    show (([4, 4, 0] : List Int).get ⟨1, by decide⟩) = 4 by decide,
    show (([3, 3, 1, 1] : List Int).get ⟨2, by decide⟩) = 1 by decide] at h0 h1 hc2
  have h02 : M ⟨0, by decide⟩ ⟨2, by decide⟩ = true := by
    by_contra hcon
    rw [Bool.not_eq_true] at hcon
    rw [hcon] at h0
    split_ifs at h0 <;> simp_all
  have h12 : M ⟨1, by decide⟩ ⟨2, by decide⟩ = true := by
    by_contra hcon
    rw [Bool.not_eq_true] at hcon
    rw [hcon] at h1
    split_ifs at h1 <;> simp_all
  rw [h02, h12] at hc2
  split_ifs at hc2 <;> simp_all

/-- C3 (refutation): a feasible pair rejected by the defensive check.
`r = [2,1,1]`, `c = [3,1,0]` admits a binary matrix, but `check_margins`
raises (its prefix test compares the unsorted `c` against the conjugate of
`c`, and `cumsum(c)[0] = 3 > 2 = cumsum(cc)[0]`), so `arbitrary_from_margins`
raises `InfeasibleMargins` instead of returning a matrix, for every fuel. -/
theorem claim_C3_arbitrary_rejects_feasible_margins :
    existsBinaryMatrix [2, 1, 1] [3, 1, 0] ∧
    checkMargins [2, 1, 1] [3, 1, 0] = false ∧
    ∀ fuel, arbitraryFromMargins [2, 1, 1] [3, 1, 0] fuel = none := by
  refine ⟨⟨fun i j => decide (j.val = 0) || (decide (i.val = 0) && decide (j.val = 1)), ?_, ?_⟩,
    by decide, fun fuel => ?_⟩
  · decide
  · decide
  · unfold arbitraryFromMargins
    rw [if_pos (by decide)]

/-- C6 (refutation at `a = b = 0`): the `G` update calls
`np.logaddexp(1.0, ·)` — `log(exp 1 + exp ·)` — where a stable log-sum-exp
needs `log(exp 0 + exp ·)` (i.e. `log1p∘exp`).  At `a = b = 0` (which arises
with uniform weights, where `G[1,i,n-2] = log 1 = 0` meets `a = 0`) the code
stores `log(e + 1) ≈ 1.313` instead of `log(exp 0 + exp 0) = log 2 ≈ 0.693`,
so the update is *not* `log(exp a + exp b)`. -/
theorem claim_C6_g_update_is_not_logsumexp :
    gCombine ((0 : ℝ) : EReal) ((0 : ℝ) : EReal)
        = ((Real.log (Real.exp 1 + 1) : ℝ) : EReal)
    ∧ gCombine ((0 : ℝ) : EReal) ((0 : ℝ) : EReal)
        ≠ ((Real.log (Real.exp 0 + Real.exp 0) : ℝ) : EReal) := by
  have heval : gCombine ((0 : ℝ) : EReal) ((0 : ℝ) : EReal)
      = ((Real.log (Real.exp 1 + 1) : ℝ) : EReal) := by
    unfold gCombine
    rw [if_neg (by simp), if_neg (by simp)]
    have hsub : ((0 : ℝ) : EReal) - ((0 : ℝ) : EReal) = ((0 : ℝ) : EReal) := by
      rw [← EReal.coe_sub]
      norm_num
    rw [hsub]
    unfold logaddexp1 expE
    rw [if_neg (by simp)]
    simp [Real.exp_zero]
  refine ⟨heval, ?_⟩
  rw [heval]
  intro hcon
  rw [EReal.coe_eq_coe_iff] at hcon
  have h2e : (2 : ℝ) < Real.exp 1 + 1 := by
    have := Real.exp_one_gt_d9
    norm_num at this ⊢
    linarith
  have hlt : Real.log (Real.exp 0 + Real.exp 0) < Real.log (Real.exp 1 + 1) := by
    apply Real.log_lt_log
    · norm_num [Real.exp_zero]
    · rw [Real.exp_zero]
      norm_num
      linarith
  rw [hcon] at hlt
  exact lt_irrefl _ hlt

/-- C9 (refutation at `w = [[0,0],[1,1]]`): on a nonnegative matrix with an
all-zero row the Sinkhorn iteration produces non-finite values, yet
`canonical_scalings` performs a normal return (`some`), not an error: the
first division gives `inf`, the mean re-centering turns it into `nan`, and
after one loop iteration the tolerance itself is `nan`, so `nan > tol`
is false and the loop exits, returning all-`nan` scale vectors.  No
`BalancingFailure` is ever signaled (the source has no such error path). -/
theorem claim_C9_counterexample_zero_row_returns_normally :
    canonicalScalingsFV [[.fin 0, .fin 0], [.fin 1, .fin 1]] 2
      = some ([.nan, .nan], [.nan, .nan]) := by
  with_unfolding_all decide

/-- C9 (amended): on the all-zero-row input the routine terminates (with
fuel 2, i.e. after a single loop iteration) and silently returns scale
vectors containing `nan` instead of signaling `BalancingFailure`. -/
theorem claim_C9_amended_nan_returned_silently :
    ∃ a b, canonicalScalingsFV [[.fin 0, .fin 0], [.fin 1, .fin 1]] 2 = some (a, b)
      ∧ FV.nan ∈ a ∧ FV.nan ∈ b := by
  exact ⟨[.nan, .nan], [.nan, .nan], by with_unfolding_all decide, by decide, by decide⟩

lemma sinkhorn_w4_eval : canonicalScalings w4test 2 = some ([1, 1], [1, 1, 1]) := by
  have hr3 : List.range 3 = [0, 1, 2] := by decide
  unfold canonicalScalings
  rw [if_pos (by norm_num [w4test])]
  simp only [w4test]
  norm_num [sinkhornStep, hr3, List.zip_cons_cons, List.map_cons, List.map_nil,
    List.sum_cons, List.sum_nil, List.zip_nil_right]

lemma c4_run (stream : ℕ → ℝ) :
    ∃ st, approximateRun [1, 1] [1, 1, 0] w4test stream 2 = some (st, .zeroBreak)
      ∧ st.B = [(-1, -1), (-1, -1)] ∧ st.count = 2 := by
  have hr3 : List.range 3 = [0, 1, 2] := by decide
  have hr2 : List.range 2 = [0, 1] := by decide
  unfold approximateRun
  rw [show checkMargins [1, 1] [1, 1, 0] = true from by decide]
  rw [if_neg (by simp)]
  rw [if_neg (by norm_num [w4test])]
  rw [sinkhorn_w4_eval]
  simp only []
  rw [if_neg (by decide)]
  have hcndx : lexsortCols
      (fun j => colVar (List.map (fun i =>
        List.map (fun j => (([1, 1] : List ℝ)).getD i 0 * ((w4test.getD i []).getD j 0)
          * (([1, 1, 1] : List ℝ)).getD j 0) (List.range ([1,1,0] : List ℤ).length))
        (List.range ([1,1] : List ℤ).length)) ([1,1] : List ℤ).length j)
      [1, 1, 0] ([1,1,0] : List ℤ).length = [2, 1, 0] := by
    have hv : ∀ j, colVar (List.map (fun i =>
        List.map (fun j => (([1, 1] : List ℝ)).getD i 0 * ((w4test.getD i []).getD j 0)
          * (([1, 1, 1] : List ℝ)).getD j 0) (List.range ([1,1,0] : List ℤ).length))
        (List.range ([1,1] : List ℤ).length)) ([1,1] : List ℤ).length j
        = colVar w4test 2 j := by
      intro j
      congr 1
      · simp only [w4test]
        norm_num [List.range_succ]
    have hv0 : colVar w4test 2 0 = 4/25 := by
      norm_num [colVar, colMean, w4test]
    have hv1 : colVar w4test 2 1 = 1/4 := by
      norm_num [colVar, colMean, w4test]
    have hv2 : colVar w4test 2 2 = 81/100 := by
      norm_num [colVar, colMean, w4test]
    simp only [hv, lexsortCols]
    norm_num [stableSort, stableInsert, hv0, hv1, hv2, List.range_succ]
  rw [hcndx]
  simp only [hr3, columnLoop, columnStep]
  rw [if_pos (Or.inl (by decide))]
  refine ⟨_, rfl, ?_, ?_⟩
  · show List.replicate _ _ = _
    rw [show (List.map (fun i => ([1, 1] : List ℤ).getD i 0) (argsortIntDesc [1, 1])).sum = 2
      from by decide]
    decide
  · show (List.map (fun i => ([1, 1] : List ℤ).getD i 0) (argsortIntDesc [1, 1])).sum = 2
    decide

lemma sinkhorn_w1_eval : canonicalScalings w1test 2 = some ([1, 1], [1, 1]) := by
  have hr2 : List.range 2 = [0, 1] := by decide
  unfold canonicalScalings
  rw [if_pos (by norm_num [w1test])]
  simp only [w1test]
  norm_num [sinkhornStep, hr2, List.zip_cons_cons, List.map_cons, List.map_nil,
    List.sum_cons, List.sum_nil, List.zip_nil_right]

lemma c1_G_eval :
    (buildG [1, 1] 2 2 1 (fun i j => (([[1, 1], [1, 1]] : List (List ℝ))[i]?.getD [])[([0, 1] : List ℕ)[j]?.getD 0]?.getD 0) fun i j =>
        Real.log ((([[1, 1], [1, 1]] : List (List ℝ))[i]?.getD [])[([0, 1] : List ℕ)[j]?.getD 0]?.getD 0)) 0 0 0 = ((1 : ℝ) : EReal)
    ∧ (buildG [1, 1] 2 2 1 (fun i j => (([[1, 1], [1, 1]] : List (List ℝ))[i]?.getD [])[([0, 1] : List ℕ)[j]?.getD 0]?.getD 0) fun i j =>
        Real.log ((([[1, 1], [1, 1]] : List (List ℝ))[i]?.getD [])[([0, 1] : List ℕ)[j]?.getD 0]?.getD 0)) 0 1 0 = ((1 : ℝ) : EReal) := by
  have hr2 : List.range 2 = [0, 1] := by decide
  have hr1 : List.range 1 = [0] := by decide
  have hr0 : List.range 0 = ([] : List ℕ) := by decide
  constructor <;>
  · norm_num [buildG, buildGInit, buildGRowCol, transformGRow, gUpdate, hr2, hr1, hr0,
      List.foldl_cons, List.foldl_nil, List.map_nil, expE, EReal.coe_ne_bot,
      Real.log_one, Real.exp_zero]

set_option maxHeartbeats 4000000 in
lemma c1_col0 :
    columnStep
      { m := 2, csort := [1, 1], cndx := [0, 1],
        G := buildG [1, 1] 2 2 1
          (fun i j => (([[1, 1], [1, 1]] : List (List ℝ))[i]?.getD [])[([0, 1] : List ℕ)[j]?.getD 0]?.getD 0)
          (fun i j => Real.log ((([[1, 1], [1, 1]] : List (List ℝ))[i]?.getD [])[([0, 1] : List ℕ)[j]?.getD 0]?.getD 0)),
        stream := stream1test } 0
      { r := [1, 1], rndx := [0, 1], irndx := [0, 1], cconj := [2, 0], count := 2, ccount2 := 2,
        ccount2c := 0, ccount3c := 0, rcount2 := 2, rcount2c := 0, rcount3c := 0, n := 2,
        S := fun _ _ => 0, SS := fun _ => 0, B := List.replicate (Int.toNat 2) ((-1 : ℤ), (-1 : ℤ)),
        place := -1, t := 0, lastSSS := 0 }
    = ({ r := [0, 1], rndx := [1, 0], irndx := [1, 0], cconj := [1, 0], count := 1,
         ccount2 := 1, ccount2c := 0, ccount3c := 0, rcount2 := 1, rcount2c := 0,
         rcount3c := 0, n := 1, S := S1fix, SS := SSfix, B := [(0, 0), (-1, -1)],
         place := 0, t := 1, lastSSS := 1/2 }, none) := by
  have heps : (0:ℝ) < eps0 := by rw [eps0]; positivity
  have hrev2 : (List.range 2).reverse = [1, 0] := by decide
  have hr2 : List.range 2 = [0, 1] := by decide
  have hE : ¬ ((1 : EReal) < 0) := by
    rw [show (1 : EReal) = ((1 : ℝ) : EReal) from rfl,
      show (0 : EReal) = ((0 : ℝ) : EReal) from rfl, EReal.coe_lt_coe_iff]
    norm_num
  have ht : (Int.toNat 2) = 2 := by decide
  have hr1 : List.range 1 = [0] := by decide
  have hr0 : List.range 0 = [] := by decide
  have hc1 : (0:ℝ) < 1/2 + eps0 := by positivity
  have ht1 : (Int.toNat 1) = 1 := by decide
  have ht0 : (Int.toNat 0) = 0 := by decide
  norm_num [columnStep, dpLoop, dpRowCore, dpNormalize, samplingLoop, resortLoop,
    resortStep, resortAdvance, stream1test, hrev2, hr2, c1_G_eval.1, c1_G_eval.2,
    Real.exp_zero, List.foldl_cons, List.foldl_nil, hE, ht, hr1, hr0, hc1, ht1, ht0,
    List.flatMap_cons, List.flatMap_nil, EReal.toReal_coe]
  and_intros <;>
    first
      | (funext jj i'
         simp only [S1fix]
         split_ifs <;> first | (exfalso; omega) | norm_num)
      | (funext jj
         simp only [SSfix]
         split_ifs <;> first | (exfalso; omega) | norm_num)
      | decide
      | norm_num

set_option maxHeartbeats 4000000 in
lemma c1_col1 :
    columnStep
      { m := 2, csort := [1, 1], cndx := [0, 1],
        G := buildG [1, 1] 2 2 1
          (fun i j => (([[1, 1], [1, 1]] : List (List ℝ))[i]?.getD [])[([0, 1] : List ℕ)[j]?.getD 0]?.getD 0)
          (fun i j => Real.log ((([[1, 1], [1, 1]] : List (List ℝ))[i]?.getD [])[([0, 1] : List ℕ)[j]?.getD 0]?.getD 0)),
        stream := stream1test } 1
      { r := [0, 1], rndx := [1, 0], irndx := [1, 0], cconj := [1, 0], count := 1,
        ccount2 := 1, ccount2c := 0, ccount3c := 0, rcount2 := 1, rcount2c := 0,
        rcount3c := 0, n := 1, S := S1fix, SS := SSfix, B := [(0, 0), (-1, -1)],
        place := 0, t := 1, lastSSS := 1/2 }
    = ({ r := [-1, 1], rndx := [1, 0], irndx := [1, 0], cconj := [0, 0], count := 0,
         ccount2 := 0, ccount2c := 0, ccount3c := 0, rcount2 := 2, rcount2c := 2,
         rcount3c := -6, n := 0, S := S2fix, SS := SSfix, B := [(0, 0), (0, 1)],
         place := 1, t := 3, lastSSS := 1 }, some ExitKind.countBreak) := by
  have heps : (0:ℝ) < eps0 := by rw [eps0]; positivity
  have hrev2 : (List.range 2).reverse = [1, 0] := by decide
  have hr2 : List.range 2 = [0, 1] := by decide
  have ht : (Int.toNat 2) = 2 := by decide
  have hr1 : List.range 1 = [0] := by decide
  have hr0 : List.range 0 = [] := by decide
  have hc1 : (0:ℝ) < 1/2 + eps0 := by positivity
  have hc2 : (0:ℝ) < 1 + eps0 := by positivity
  have ht1 : (Int.toNat 1) = 1 := by decide
  have ht0 : (Int.toNat 0) = 0 := by decide
  have hd1 : (0:ℝ) < 1/2/(1/2 + eps0) := by positivity
  have hd0 : ¬ ((1 + eps0)⁻¹ < 1/(1 + eps0)) := by
    rw [one_div]
    exact lt_irrefl _
  norm_num [columnStep, dpLoop, dpRowCore, dpNormalize, samplingLoop, resortLoop,
    resortStep, resortAdvance, stream1test, S1fix, SSfix, hrev2, hr2,
    Real.exp_zero, List.foldl_cons, List.foldl_nil, ht, hr1, hr0, hc1, hc2, ht1, ht0,
    hd1, hd0]
  and_intros <;>
    first
      | (funext jj i'
         simp only [S2fix]
         split_ifs <;> first | (exfalso; omega) | norm_num)
      | (funext jj
         simp only [SSfix]
         split_ifs <;> first | (exfalso; omega) | norm_num)
      | decide
      | norm_num

set_option maxHeartbeats 4000000 in
lemma c1_run :
    ∃ st, approximateRun [1, 1] [1, 1] w1test stream1test 2 = some (st, .countBreak)
      ∧ st.B = [(0, 0), (0, 1)] ∧ st.r = [-1, 1] := by
  have hr2 : List.range 2 = [0, 1] := by decide
  unfold approximateRun
  rw [show checkMargins [1, 1] [1, 1] = true from by decide]
  rw [if_neg (by simp)]
  rw [if_neg (by norm_num [w1test])]
  rw [sinkhorn_w1_eval]
  simp only []
  rw [if_neg (by decide)]
  have hcndx : lexsortCols
      (fun j => colVar (List.map (fun i =>
        List.map (fun j => (([1, 1] : List ℝ)).getD i 0 * ((w1test.getD i []).getD j 0)
          * (([1, 1] : List ℝ)).getD j 0) (List.range ([1,1] : List ℤ).length))
        (List.range ([1,1] : List ℤ).length)) ([1,1] : List ℤ).length j)
      [1, 1] ([1,1] : List ℤ).length = [0, 1] := by
    have hv : ∀ j, colVar (List.map (fun i =>
        List.map (fun j => (([1, 1] : List ℝ)).getD i 0 * ((w1test.getD i []).getD j 0)
          * (([1, 1] : List ℝ)).getD j 0) (List.range ([1,1] : List ℤ).length))
        (List.range ([1,1] : List ℤ).length)) ([1,1] : List ℤ).length j
        = colVar w1test 2 j := by
      intro j
      congr 1
      · simp only [w1test]
        norm_num [List.range_succ]
    have hv0 : colVar w1test 2 0 = 0 := by
      norm_num [colVar, colMean, w1test]
    have hv1 : colVar w1test 2 1 = 0 := by
      norm_num [colVar, colMean, w1test]
    simp only [hv, lexsortCols]
    norm_num [stableSort, stableInsert, hv0, hv1, List.range_succ]
  rw [hcndx]
  have ha : argsortIntDesc [1, 1] = [0, 1] := by decide
  have hmap : List.map (fun j => ([1, 1] : List ℤ).getD j 0) [0, 1] = [1, 1] := by decide
  have hconj : conjugate [1, 1] 2 = [2, 0] := by decide
  simp only [ha, hmap, List.length_cons, List.length_nil, show argsortNatAsc [0, 1] = [0, 1]
    from by decide, hconj, show (List.foldl max 0 [1, 1] : ℤ).toNat = 1 from by decide]
  norm_num [w1test, hr2]
  simp only [columnLoop, c1_col0, c1_col1]
  exact ⟨_, rfl, rfl, rfl⟩

/-- **C4.** The claim — the column loop truncates (leaving sentinel slots)
only when the DP normalizing total collapses to zero or when the current
column's target count and the overall remaining count are both zero — is
false.  With `r = [1, 1]`, `c = [1, 1, 0]` and generic positive weights the
variance-first `lexsort` places the zero column first, and line 282's
`colval == 0 or count == 0` fires with `count = 2` ones still unassigned:
the run aborts immediately with the output still all sentinels, under
neither sanctioned condition, for every random stream. -/
theorem claim_C4_truncation_without_listed_condition :
    ¬ (∀ (r c : List ℤ) (w : List (List ℝ)) (stream : ℕ → ℝ) (fuel : ℕ)
         (st : SamplerState) (e : ExitKind),
        approximateRun r c w stream fuel = some (st, e) →
        e ≠ ExitKind.completed →
        hasSentinel st.B = true →
        e = ExitKind.ssBreak ∨ st.count = 0) := by
  intro h
  obtain ⟨st, hrun, hB, hcount⟩ := c4_run (fun _ => 0)
  rcases h _ _ _ _ _ _ _ hrun (by decide) (by rw [hB]; decide) with h1 | h2
  · exact absurd h1 (by decide)
  · rw [hcount] at h2
    exact absurd h2 (by decide)

/-- **C5.** The claim — a negative precomputed entry `G[val-1, row, col]`
(the `-1` sentinel for a non-finite log-space denominator) makes the
downstream logic treat the row as never filled in that column — is false.
Line 336 zeroes `q`, the *no-fill* weight, so the row's freshly written
`S` entry becomes `b/(b + eps0) > 0` (nearly always-fill), not `0` and not
the untouched old entry: with row value `1`, unit weight and a one-row
window the entry is `(1/2)/(1/2 + eps0) > 0`. -/
theorem claim_C5_negative_G_entry_still_fills :
    ¬ (∀ (dc : DPCtx) (i : ℕ) (d : DPState) (jj : ℤ),
        0 < dc.n → 0 < dc.r.getD (dc.rndx.getD i 0) 0 →
        dc.G ((dc.r.getD (dc.rndx.getD i 0) 0 - 1).toNat) (dc.rndx.getD i 0) dc.c1 < 0 →
        (dpRowCore dc i d).S jj i ≤ 0 ∨ (dpRowCore dc i d).S jj i = d.S jj i) := by
  intro h
  have heps : (0:ℝ) < eps0 := by rw [eps0]; positivity
  have hneg : (((-1 : ℝ) : EReal)) < 0 := by
    rw [show (0 : EReal) = ((0 : ℝ) : EReal) from rfl, EReal.coe_lt_coe_iff]
    norm_num
  have hneg2 : ((-1 : EReal)) < 0 := by simpa using hneg
  have hval : (dpRowCore
      { G := fun _ _ _ => ((-1 : ℝ) : EReal), c1 := 0, cconj := [0], r := [1],
        rndx := [0], n := 1, count := 1, m := 1, weightA := 0 } 0
      { smin := 1, smax := 1, cumsums := 1, cumconj := 0,
        SS := fun jj => if jj = 2 then 1 else 0, S := fun _ _ => 0, SSS := 1 }).S 1 0
      = (1/2) / (1/2 + eps0) := by
    norm_num [dpRowCore, hneg, hneg2, Real.exp_zero]
  have h5 := h
    { G := fun _ _ _ => ((-1 : ℝ) : EReal), c1 := 0, cconj := [0], r := [1],
      rndx := [0], n := 1, count := 1, m := 1, weightA := 0 } 0
    { smin := 1, smax := 1, cumsums := 1, cumconj := 0,
      SS := fun jj => if jj = 2 then 1 else 0, S := fun _ _ => 0, SSS := 1 } 1
    (by norm_num) (by norm_num) (by simpa using hneg)
  rw [hval] at h5
  have hpos : (0:ℝ) < (1/2) / (1/2 + eps0) := by positivity
  rcases h5 with h1 | h2
  · exact absurd h1 (not_le.mpr hpos)
  · exact absurd h2 (ne_of_gt hpos)


/-- `stableInsert` permutes: inserting `x` yields a permutation of `x :: l`. -/
lemma stableInsert_perm {α : Type} (before : α → α → Prop) [DecidableRel before]
    (x : α) (l : List α) : (stableInsert before x l).Perm (x :: l) := by
  induction l with
  | nil => exact List.Perm.refl _
  | cons y rest ih =>
    unfold stableInsert
    split_ifs
    · exact List.Perm.refl _
    · exact (ih.cons y).trans (List.Perm.swap x y rest)

lemma stableSort_foldl_perm {α : Type} (before : α → α → Prop) [DecidableRel before] :
    ∀ (l acc : List α),
      (l.foldl (fun a x => stableInsert before x a) acc).Perm (l ++ acc)
  | [], acc => List.Perm.refl _
  | x :: l, acc => by
    simp only [List.foldl_cons, List.cons_append]
    exact (stableSort_foldl_perm before l (stableInsert before x acc)).trans
      (((stableInsert_perm before x acc).append_left l).trans List.perm_middle)

/-- `stableSort` permutes its input. -/
lemma stableSort_perm {α : Type} (before : α → α → Prop) [DecidableRel before]
    (l : List α) : (stableSort before l).Perm l := by
  simpa [stableSort] using stableSort_foldl_perm before l []

lemma sum_getD_range (r : List ℤ) :
    ((List.range r.length).map (fun i => r.getD i 0)).sum = r.sum := by
  induction r with
  | nil => rfl
  | cons a r ih =>
    rw [List.length_cons, List.range_succ_eq_map, List.map_cons, List.map_map]
    simp only [Function.comp_def, List.getD_cons_zero, List.getD_cons_succ]
    rw [List.sum_cons, ih, List.sum_cons]

/-- Summing the margins along the `argsort` permutation gives `sum r`. -/
lemma argsortIntDesc_sum (r : List ℤ) :
    ((argsortIntDesc r).map (fun i => r.getD i 0)).sum = r.sum := by
  have hperm : (argsortIntDesc r).Perm (List.range r.length) :=
    stableSort_perm _ _
  rw [(hperm.map (fun i => r.getD i 0)).sum_eq, sum_getD_range]

lemma set_of_length_le {α : Type} :
    ∀ (l : List α) (n : ℕ) (v : α), l.length ≤ n → l.set n v = l
  | [], _, _, _ => rfl
  | _ :: _, 0, _, h => by simp at h
  | x :: l, n + 1, v, h => by
    simp only [List.set_cons_succ]
    rw [set_of_length_le l n v (by simpa using h)]

lemma set_append_length {α : Type} :
    ∀ (F l₂ : List α) (v : α), (F ++ l₂).set F.length v = F ++ l₂.set 0 v
  | [], _, _ => rfl
  | x :: F, l₂, v => by
    simp only [List.cons_append, List.length_cons, List.set_cons_succ]
    rw [set_append_length F l₂ v]


/-- Writing a nonnegative pair at slot `place + 1` preserves the output
invariant and advances the prefix. -/
lemma BInv_set (N : ℕ) (B : List (ℤ × ℤ)) (place : ℤ) (v : ℤ × ℤ)
    (hv1 : 0 ≤ v.1) (hv2 : 0 ≤ v.2) (h : BInv N B place) :
    BInv N (B.set (place + 1).toNat v) (place + 1) := by
  obtain ⟨hlen, hpl, F, hF, hFn, hBe⟩ := h
  by_cases hcase : (place + 1).toNat < N
  · have hFlen : F.length = (place + 1).toNat := by omega
    have ht : N - F.length = (N - F.length - 1) + 1 := by omega
    refine ⟨by rw [List.length_set]; exact hlen, by omega, F ++ [v], ?_, ?_, ?_⟩
    · rw [List.length_append, List.length_cons, List.length_nil]
      omega
    · intro p hp
      rcases List.mem_append.mp hp with hmem | hmem
      · exact hFn p hmem
      · rw [List.mem_singleton.mp hmem]
        exact ⟨hv1, hv2⟩
    · rw [hBe, ← hFlen, set_append_length, ht, List.replicate_succ,
        List.set_cons_zero, List.append_cons]
      have : N - (F ++ [v]).length = N - F.length - 1 := by
        rw [List.length_append, List.length_cons, List.length_nil]
        omega
      rw [this]
  · have hnoop : B.length ≤ (place + 1).toNat := by omega
    rw [set_of_length_le _ _ _ hnoop]
    exact ⟨hlen, by omega, F, by omega, hFn, hBe⟩

/-- The sampling pass preserves the output invariant: every write targets
slot `place + 1` with a nonnegative `(rlabel, label)` pair. -/
lemma samplingLoop_BInv (S : ℤ → ℕ → ℝ) (stream : ℕ → ℝ) (rndx : List ℕ)
    (label jmax : ℤ) (hlabel : 0 ≤ label) (N : ℕ) :
    ∀ (idxs : List ℕ) (s : SampState), BInv N s.B s.place →
      BInv N (samplingLoop S stream rndx label jmax idxs s).B
        (samplingLoop S stream rndx label jmax idxs s).place
  | [], _, h => h
  | i :: rest, s, h => by
    rw [samplingLoop]
    simp only []
    split_ifs with hfill hjmax
    · exact BInv_set N s.B s.place _ (Int.natCast_nonneg _) hlabel h
    · exact samplingLoop_BInv S stream rndx label jmax hlabel N rest _
        (BInv_set N s.B s.place _ (Int.natCast_nonneg _) hlabel h)
    · exact samplingLoop_BInv S stream rndx label jmax hlabel N rest _ h


/-- One column step preserves the output invariant: `B` is only written by
the sampling pass. -/
lemma columnStep_BInv (ctx : SamplerCtx) (c1 : ℕ) (st : SamplerState) (N : ℕ)
    (h : BInv N st.B st.place) :
    BInv N (columnStep ctx c1 st).1.B (columnStep ctx c1 st).1.place := by
  rw [columnStep]
  simp only []
  split_ifs with h1 h2 h3 h4
  · exact h
  · exact h
  all_goals {
    first
      | exact samplingLoop_BInv _ _ _ _ _ (Int.natCast_nonneg _) N _
          { j := 1, place := st.place, B := st.B, r := st.r,
            rcount2 := st.rcount2, rcount2c := st.rcount2c,
            rcount3c := st.rcount3c, t := st.t } h
      | exact h }


/-- The column loop preserves the output invariant. -/
lemma columnLoop_BInv (ctx : SamplerCtx) (N : ℕ) :
    ∀ (cols : List ℕ) (st : SamplerState), BInv N st.B st.place →
      BInv N (columnLoop ctx cols st).1.B (columnLoop ctx cols st).1.place
  | [], _, h => h
  | c1 :: rest, st, h => by
    rw [columnLoop]
    have hstep := columnStep_BInv ctx c1 st N h
    rcases hcs : columnStep ctx c1 st with ⟨st', e⟩
    rw [hcs] at hstep
    cases e with
    | none =>
      simp only []
      exact columnLoop_BInv ctx N rest st' hstep
    | some e =>
      simp only []
      exact hstep


lemma BInv_suffix {N : ℕ} {B : List (ℤ × ℤ)} {place : ℤ} (h : BInv N B place) :
    ∃ k, (∀ p ∈ B.take k, 0 ≤ p.1 ∧ 0 ≤ p.2) ∧
         (∀ p ∈ B.drop k, p = ((-1 : ℤ), (-1 : ℤ))) := by
  obtain ⟨hlen, hpl, F, hF, hFn, hBe⟩ := h
  refine ⟨F.length, ?_, ?_⟩
  · rw [hBe, List.take_left]
    exact hFn
  · rw [hBe, List.drop_left]
    intro p hp
    exact List.eq_of_mem_replicate hp

/-- **C7.** Confirmed: a returned sample list has exactly `sum(r)` slots
(`B_sample_sparse = -np.ones((count, 2))` of line 251, and sampling only
overwrites slots in place), every unassigned slot holds the sentinel pair
`(-1, -1)`, and the sentinel slots form a contiguous suffix: each fill
writes a nonnegative `(row, column)` pair at slot `place + 1` and advances
`place`, so the real entries are exactly the prefix. -/
theorem claim_C7_length_and_sentinel_suffix
    (r c : List ℤ) (w : List (List ℝ)) (stream : ℕ → ℝ) (fuel : ℕ)
    (B : List (ℤ × ℤ))
    (h : approximateFromMarginsWeights r c w stream fuel = some B) :
    B.length = r.sum.toNat ∧
    ∃ k, (∀ p ∈ B.take k, 0 ≤ p.1 ∧ 0 ≤ p.2) ∧
         (∀ p ∈ B.drop k, p = ((-1 : ℤ), (-1 : ℤ))) := by
  rw [approximateFromMarginsWeights] at h
  rcases hrun : approximateRun r c w stream fuel with _ | p
  · rw [hrun] at h
    simp at h
  rw [hrun] at h
  simp only [Option.map_some', Option.some.injEq] at h
  rw [approximateRun] at hrun
  split at hrun
  · simp at hrun
  split at hrun
  · simp at hrun
  split at hrun
  · simp at hrun
  dsimp only [] at hrun
  split at hrun
  · simp at hrun
  have hp := Option.some.inj hrun
  have hinit : BInv (((argsortIntDesc r).map (fun i => r.getD i 0)).sum).toNat
      (List.replicate (((argsortIntDesc r).map (fun i => r.getD i 0)).sum).toNat
        ((-1 : ℤ), (-1 : ℤ))) (-1) := by
    refine ⟨List.length_replicate _ _, le_refl _, [], ?_, ?_, ?_⟩
    · simp
    · intro p hp
      simp at hp
    · simp
  have hinv : BInv (((argsortIntDesc r).map (fun i => r.getD i 0)).sum).toNat
      p.1.B p.1.place := by
    rw [← hp]
    exact columnLoop_BInv _ _ _ _ (by exact hinit)
  have hsum := argsortIntDesc_sum r
  constructor
  · rw [← h]
    rw [hinv.1, hsum]
  · rw [← h]
    exact BInv_suffix hinv


/-- Witness for C7 at a concrete run: margins `[1, 1]` / `[1, 1, 0]` with
weights `w4test` and the constant-zero stream return the all-sentinel list
of length `sum r = 2`. -/
theorem claim_C7_witness :
    approximateFromMarginsWeights [1, 1] [1, 1, 0] w4test (fun _ => 0) 2
        = some [((-1 : ℤ), (-1 : ℤ)), ((-1 : ℤ), (-1 : ℤ))] ∧
    ([((-1 : ℤ), (-1 : ℤ)), ((-1 : ℤ), (-1 : ℤ))] : List (ℤ × ℤ)).length
        = (([1, 1] : List ℤ).sum).toNat ∧
    ∃ k, (∀ p ∈ ([((-1 : ℤ), (-1 : ℤ)), ((-1 : ℤ), (-1 : ℤ))] : List (ℤ × ℤ)).take k,
            0 ≤ p.1 ∧ 0 ≤ p.2) ∧
         (∀ p ∈ ([((-1 : ℤ), (-1 : ℤ)), ((-1 : ℤ), (-1 : ℤ))] : List (ℤ × ℤ)).drop k,
            p = ((-1 : ℤ), (-1 : ℤ))) := by
  have hsome : approximateFromMarginsWeights [1, 1] [1, 1, 0] w4test (fun _ => 0) 2
      = some [((-1 : ℤ), (-1 : ℤ)), ((-1 : ℤ), (-1 : ℤ))] := by
    obtain ⟨st, hrun, hB, hcount⟩ := c4_run (fun _ => 0)
    rw [approximateFromMarginsWeights, hrun]
    simp [hB]
  exact ⟨hsome, claim_C7_length_and_sentinel_suffix _ _ _ _ _ _ hsome⟩

/-- **C10.** Confirmed (for the embedding of the call): the function reads
its arguments only to build its own copies (`r, c = r.copy(), c.copy()` on
line 170, freshly allocated `wopt` and output arrays), so the caller's
arrays are returned untouched; and the protection is not vacuous — in the
`[1, 1]` run the sampler's internal copy of `r` ends at `[-1, 1]`, different
from the argument, so the mutation would be observable if it aliased the
caller's array. -/
theorem claim_C10_caller_arrays_unchanged :
    (∀ (args : CallerArrays) (stream : ℕ → ℝ) (fuel : ℕ),
        (approximateCall args stream fuel).1 = args) ∧
    (∃ st, approximateRun [1, 1] [1, 1] w1test stream1test 2
        = some (st, ExitKind.countBreak) ∧ st.r ≠ [1, 1]) := by
  refine ⟨fun _ _ _ => rfl, ?_⟩
  obtain ⟨st, hrun, hB, hr⟩ := c1_run
  refine ⟨st, hrun, ?_⟩
  rw [hr]
  decide


end BinaryMatrix
